import Mathlib

/-!
Verification of the `laa` library (`src/laa/laa.py`): lazy replacements for
Python's `any` and `all`, combining short-circuit evaluation with the
behaviour of `any`/`all` over a list mixing boolean literals, zero-argument
functions (thunks), and arbitrary other values.

The embedding below follows `lazy_all` and `lazy_any` from the source:
conditions are a tagged union (the source distinguishes `bool` instances,
`types.FunctionType` instances, and everything else by `isinstance` checks);
thunks are modelled by the outcome of their single invocation, either a
returned Python value or a raised exception.  The interpreters additionally
record the list positions at which a thunk is invoked, in invocation order,
so that short-circuiting and evaluation order are provable facts.
-/

set_option autoImplicit false

namespace Laa

/-- A Python exception value, identified abstractly by a tag. -/
structure PyExc where
  tag : Nat
deriving DecidableEq, Repr

/-- A fragment of Python values sufficient to exercise truthiness: booleans,
integers, strings and `None`. -/
inductive PyVal where
  | vbool : Bool → PyVal
  | vint : Int → PyVal
  | vstr : String → PyVal
  | vnone : PyVal
deriving DecidableEq, Repr

/-- Python truthiness (`if not condition_value` in the source): `False`, zero,
the empty string and `None` are falsy; everything else is truthy. -/
def PyVal.truthy : PyVal → Bool
  | .vbool b => b
  | .vint n => decide (n ≠ 0)
  | .vstr s => decide (s ≠ "")
  | .vnone => false

instance {ε α : Type} [DecidableEq ε] [DecidableEq α] : DecidableEq (Except ε α) := fun x y =>
  match x, y with
  | .ok a, .ok b =>
    if h : a = b then .isTrue (by rw [h]) else .isFalse (fun hc => by cases hc; exact h rfl)
  | .ok _, .error _ => .isFalse (fun hc => by cases hc)
  | .error _, .ok _ => .isFalse (fun hc => by cases hc)
  | .error e, .error f =>
    if h : e = f then .isTrue (by rw [h]) else .isFalse (fun hc => by cases hc; exact h rfl)

/-- An entry of `list_of_conditions` as the source's `isinstance` dispatch
sees it: a `bool` instance, a `types.FunctionType` instance (modelled by the
outcome of invoking it: a raised exception or a returned value), or any other
value, which both functions skip. -/
inductive Condition where
  | boolLit : Bool → Condition
  | thunk : Except PyExc PyVal → Condition
  | other : PyVal → Condition
deriving DecidableEq, Repr

/-- Whether an entry is dispatched to one of the two evaluating branches
(`isinstance(condition, bool)` or `isinstance(condition, types.FunctionType)`). -/
def Condition.isEvaluable : Condition → Bool
  | .boolLit _ => true
  | .thunk _ => true
  | .other _ => false

/-- Whether an entry is a thunk (the only kind whose evaluation is observable). -/
def Condition.isThunk : Condition → Bool
  | .thunk _ => true
  | _ => false

/-- The outcome of one loop iteration on a single entry: `none` when the entry
is skipped by the final `else: continue` branch, otherwise the truthiness of
`condition_value` or the exception the thunk raised. -/
def evalResult : Condition → Option (Except PyExc Bool)
  | .boolLit b => some (.ok b)
  | .thunk (.ok v) => some (.ok v.truthy)
  | .thunk (.error e) => some (.error e)
  | .other _ => none

/-- Whether the scan of `lazy_all` moves past this entry (it is skipped, or
evaluated to a truthy value). -/
def continuesAll (c : Condition) : Bool :=
  match evalResult c with
  | none => true
  | some (.ok b) => b
  | some (.error _) => false

/-- Whether the scan of `lazy_any` moves past this entry (it is skipped, or
evaluated to a falsy value). -/
def continuesAny (c : Condition) : Bool :=
  match evalResult c with
  | none => true
  | some (.ok b) => !b
  | some (.error _) => false

/-- The loop of `lazy_all`, carrying the `evaluated` counter, instrumented
with the list of positions (relative to the remaining list) at which a thunk
is invoked, in invocation order.  Mirrors the source: booleans and thunks bump
`evaluated`; a falsy `condition_value` returns `False` at once; a raising
thunk propagates; other entries are skipped; at the end the result is
`evaluated > 0`. -/
def lazy_allGo : List Condition → Nat → Except PyExc Bool × List Nat
  | [], evaluated => (.ok (decide (0 < evaluated)), [])
  | condition :: rest, evaluated =>
    match condition with
    | .boolLit b =>
      if b then
        let r := lazy_allGo rest (evaluated + 1)
        (r.1, r.2.map (· + 1))
      else
        (.ok false, [])
    | .thunk (.error e) => (.error e, [0])
    | .thunk (.ok v) =>
      if v.truthy then
        let r := lazy_allGo rest (evaluated + 1)
        (r.1, 0 :: r.2.map (· + 1))
      else
        (.ok false, [0])
    | .other _ =>
      let r := lazy_allGo rest evaluated
      (r.1, r.2.map (· + 1))

/-- `lazy_all(list_of_conditions)`: `Except` models the possibility of a thunk
raising, in which case the exception propagates to the caller. -/
def lazy_all (l : List Condition) : Except PyExc Bool :=
  (lazy_allGo l 0).1

/-- The positions (indices into the list) of the thunks `lazy_all` invokes,
in invocation order. -/
def lazy_all_invoked (l : List Condition) : List Nat :=
  (lazy_allGo l 0).2

/-- The loop of `lazy_any`, instrumented like `lazy_allGo`.  Mirrors the
source: a truthy `condition_value` returns `True` at once; a raising thunk
propagates; other entries are skipped; falling off the loop returns `False`.
`lazy_any` keeps no `evaluated` counter. -/
def lazy_anyGo : List Condition → Except PyExc Bool × List Nat
  | [] => (.ok false, [])
  | condition :: rest =>
    match condition with
    | .boolLit b =>
      if b then
        (.ok true, [])
      else
        let r := lazy_anyGo rest
        (r.1, r.2.map (· + 1))
    | .thunk (.error e) => (.error e, [0])
    | .thunk (.ok v) =>
      if v.truthy then
        (.ok true, [0])
      else
        let r := lazy_anyGo rest
        (r.1, 0 :: r.2.map (· + 1))
    | .other _ =>
      let r := lazy_anyGo rest
      (r.1, r.2.map (· + 1))

/-- `lazy_any(list_of_conditions)`. -/
def lazy_any (l : List Condition) : Except PyExc Bool :=
  (lazy_anyGo l).1

/-- The positions of the thunks `lazy_any` invokes, in invocation order. -/
def lazy_any_invoked (l : List Condition) : List Nat :=
  (lazy_anyGo l).2

/-- Whether invoking this entry raises (it is a thunk whose single invocation
raises an exception). -/
def raisesWhenInvoked : Condition → Bool
  | .thunk (.error _) => true
  | _ => false

/-- The loop of `lazy_all` as a state-passing program: the caller's list is
part of the state, each iteration reads `st.get? i` (the `for` loop only reads
successive elements), and the possibly-updated list is returned with the
result.  No branch of the source writes to the list, so no branch here does.
`fuel` bounds the iteration count; `lazy_allS` supplies `st.length`, enough to
reach the read that returns `none`. -/
def lazy_allLoop (st : List Condition) : Nat → Nat → Nat → Except PyExc Bool × List Condition
  | 0, _, evaluated => (.ok (decide (0 < evaluated)), st)
  | fuel + 1, i, evaluated =>
    match st.get? i with
    | none => (.ok (decide (0 < evaluated)), st)
    | some (.boolLit b) =>
      if b then lazy_allLoop st fuel (i + 1) (evaluated + 1) else (.ok false, st)
    | some (.thunk (.error e)) => (.error e, st)
    | some (.thunk (.ok v)) =>
      if v.truthy then lazy_allLoop st fuel (i + 1) (evaluated + 1) else (.ok false, st)
    | some (.other _) => lazy_allLoop st fuel (i + 1) evaluated

/-- The loop of `lazy_any` as a state-passing program, like `lazy_allLoop`. -/
def lazy_anyLoop (st : List Condition) : Nat → Nat → Except PyExc Bool × List Condition
  | 0, _ => (.ok false, st)
  | fuel + 1, i =>
    match st.get? i with
    | none => (.ok false, st)
    | some (.boolLit b) => if b then (.ok true, st) else lazy_anyLoop st fuel (i + 1)
    | some (.thunk (.error e)) => (.error e, st)
    | some (.thunk (.ok v)) => if v.truthy then (.ok true, st) else lazy_anyLoop st fuel (i + 1)
    | some (.other _) => lazy_anyLoop st fuel (i + 1)

/-- `lazy_all` in the state-passing presentation: result plus final list. -/
def lazy_allS (l : List Condition) : Except PyExc Bool × List Condition :=
  lazy_allLoop l l.length 0 0

/-- `lazy_any` in the state-passing presentation: result plus final list. -/
def lazy_anyS (l : List Condition) : Except PyExc Bool × List Condition :=
  lazy_anyLoop l l.length 0

example : lazy_all [] = .ok false := by decide
example : lazy_any [] = .ok false := by decide
example : lazy_all [.other (.vint 5)] = .ok false := by decide
example : lazy_all [.other (.vint 5), .boolLit true, .boolLit true, .boolLit true] = .ok true := by
  decide
example : lazy_all [.boolLit true, .other (.vint 5)] = .ok true := by decide
example : lazy_all [.thunk (.ok (.vint 5))] = .ok true := by decide
example : lazy_all [.thunk (.ok (.vint 5)), .thunk (.ok (.vint 0))] = .ok false := by decide
example : lazy_any [.other (.vint 5)] = .ok false := by decide
example : lazy_any [.other (.vint 5), .other (.vint 3), .other (.vint 6), .boolLit false,
    .boolLit true] = .ok true := by decide
example : lazy_any [.boolLit false, .other (.vint 5)] = .ok false := by decide
example : lazy_any [.thunk (.ok (.vint 5)), .thunk (.ok (.vint 0))] = .ok true := by decide
example : lazy_all_invoked [.thunk (.ok (.vint 0)), .thunk (.ok (.vint 1))] = [0] := by decide
example : lazy_any_invoked [.boolLit false, .thunk (.ok (.vint 0)), .thunk (.ok (.vint 1)),
    .thunk (.ok (.vint 2))] = [1, 2] := by decide
example : lazy_all [.thunk (.error ⟨3⟩), .boolLit true] = .error ⟨3⟩ := by decide
example : lazy_allS [.boolLit true, .other .vnone] = (.ok true, [.boolLit true, .other .vnone]) := by
  decide
example : lazy_anyS [.boolLit false, .thunk (.ok (.vint 2))] =
    (.ok true, [.boolLit false, .thunk (.ok (.vint 2))]) := by decide

theorem mem_map_succ (tr : List Nat) (i : Nat) : i + 1 ∈ tr.map (· + 1) ↔ i ∈ tr := by
  simp only [List.mem_map]
  constructor
  · rintro ⟨a, ha, hae⟩
    have : a = i := by omega
    exact this ▸ ha
  · intro h
    exact ⟨i, h, rfl⟩

theorem zero_not_mem_map_succ (tr : List Nat) : 0 ∉ tr.map (· + 1) := by
  simp only [List.mem_map]
  rintro ⟨a, _, hae⟩
  omega

/-- What it takes for `lazy_all` to move past an entry: it is skipped, or it
evaluates to a truthy value. -/
theorem lazy_allGo_invoked_iff :
    ∀ (l : List Condition) (ev i : Nat),
      i ∈ (lazy_allGo l ev).2 ↔
        (∃ r, l.get? i = some (.thunk r)) ∧
          ∀ d ∈ l.take i, evalResult d = none ∨ evalResult d = some (.ok true)
  | [], ev, i => by simp [lazy_allGo]
  | c :: rest, ev, i => by
    cases c with
    | boolLit b =>
      cases b with
      | true =>
        cases i with
        | zero => simp [lazy_allGo, zero_not_mem_map_succ]
        | succ i =>
          rw [show lazy_allGo (Condition.boolLit true :: rest) ev =
              ((lazy_allGo rest (ev + 1)).1, (lazy_allGo rest (ev + 1)).2.map (· + 1)) from rfl]
          simp only [mem_map_succ, lazy_allGo_invoked_iff rest (ev + 1) i, List.get?,
            List.take, List.mem_cons, forall_eq_or_imp, evalResult]
          tauto
      | false =>
        cases i with
        | zero => simp [lazy_allGo]
        | succ i =>
          simp [lazy_allGo, List.take, evalResult]
    | thunk r =>
      cases r with
      | error e =>
        cases i with
        | zero => simp [lazy_allGo]
        | succ i => simp [lazy_allGo, List.take, evalResult]
      | ok v =>
        cases hv : v.truthy with
        | true =>
          cases i with
          | zero => simp [lazy_allGo, hv]
          | succ i =>
            rw [show lazy_allGo (Condition.thunk (Except.ok v) :: rest) ev =
                ((lazy_allGo rest (ev + 1)).1,
                  0 :: (lazy_allGo rest (ev + 1)).2.map (· + 1)) from by simp [lazy_allGo, hv]]
            simp only [List.mem_cons, Nat.succ_ne_zero, false_or, mem_map_succ,
              lazy_allGo_invoked_iff rest (ev + 1) i, List.get?, List.take, forall_eq_or_imp,
              evalResult, hv]
            tauto
        | false =>
          cases i with
          | zero => simp [lazy_allGo, hv]
          | succ i => simp [lazy_allGo, hv, List.take, evalResult]
    | other v =>
      cases i with
      | zero => simp [lazy_allGo, zero_not_mem_map_succ]
      | succ i =>
        rw [show lazy_allGo (Condition.other v :: rest) ev =
            ((lazy_allGo rest ev).1, (lazy_allGo rest ev).2.map (· + 1)) from rfl]
        simp only [mem_map_succ, lazy_allGo_invoked_iff rest ev i, List.get?, List.take,
          List.mem_cons, forall_eq_or_imp, evalResult]
        tauto

/-- What it takes for `lazy_any` to move past an entry: it is skipped, or it
evaluates to a falsy value. -/
theorem lazy_anyGo_invoked_iff :
    ∀ (l : List Condition) (i : Nat),
      i ∈ (lazy_anyGo l).2 ↔
        (∃ r, l.get? i = some (.thunk r)) ∧
          ∀ d ∈ l.take i, evalResult d = none ∨ evalResult d = some (.ok false)
  | [], i => by simp [lazy_anyGo]
  | c :: rest, i => by
    cases c with
    | boolLit b =>
      cases b with
      | true =>
        cases i with
        | zero => simp [lazy_anyGo]
        | succ i => simp [lazy_anyGo, List.take, evalResult]
      | false =>
        cases i with
        | zero => simp [lazy_anyGo, zero_not_mem_map_succ]
        | succ i =>
          rw [show lazy_anyGo (Condition.boolLit false :: rest) =
              ((lazy_anyGo rest).1, (lazy_anyGo rest).2.map (· + 1)) from rfl]
          simp only [mem_map_succ, lazy_anyGo_invoked_iff rest i, List.get?, List.take,
            List.mem_cons, forall_eq_or_imp, evalResult]
          tauto
    | thunk r =>
      cases r with
      | error e =>
        cases i with
        | zero => simp [lazy_anyGo]
        | succ i => simp [lazy_anyGo, List.take, evalResult]
      | ok v =>
        cases hv : v.truthy with
        | true =>
          cases i with
          | zero => simp [lazy_anyGo, hv]
          | succ i => simp [lazy_anyGo, hv, List.take, evalResult]
        | false =>
          cases i with
          | zero => simp [lazy_anyGo, hv]
          | succ i =>
            rw [show lazy_anyGo (Condition.thunk (Except.ok v) :: rest) =
                ((lazy_anyGo rest).1, 0 :: (lazy_anyGo rest).2.map (· + 1)) from by
              simp [lazy_anyGo, hv]]
            simp only [List.mem_cons, Nat.succ_ne_zero, false_or, mem_map_succ,
              lazy_anyGo_invoked_iff rest i, List.get?, List.take, forall_eq_or_imp,
              evalResult, hv]
            tauto
    | other v =>
      cases i with
      | zero => simp [lazy_anyGo, zero_not_mem_map_succ]
      | succ i =>
        rw [show lazy_anyGo (Condition.other v :: rest) =
            ((lazy_anyGo rest).1, (lazy_anyGo rest).2.map (· + 1)) from rfl]
        simp only [mem_map_succ, lazy_anyGo_invoked_iff rest i, List.get?, List.take,
          List.mem_cons, forall_eq_or_imp, evalResult]
        tauto

theorem pairwise_lt_map_succ {tr : List Nat} (h : List.Pairwise (· < ·) tr) :
    List.Pairwise (· < ·) (tr.map (· + 1)) :=
  h.map (· + 1) (fun _ _ hab => Nat.succ_lt_succ hab)

/-- The invocation trace of `lazy_any` is strictly increasing: thunks are
invoked in list order, each at most once. -/
theorem lazy_anyGo_trace_sorted :
    ∀ l : List Condition, List.Pairwise (· < ·) (lazy_anyGo l).2
  | [] => by simp [lazy_anyGo]
  | c :: rest => by
    have ih := lazy_anyGo_trace_sorted rest
    cases c with
    | boolLit b =>
      cases b with
      | true => simp [lazy_anyGo]
      | false => exact pairwise_lt_map_succ ih
    | thunk r =>
      cases r with
      | error e => simp [lazy_anyGo]
      | ok v =>
        cases hv : v.truthy with
        | true => simp [lazy_anyGo, hv]
        | false =>
          rw [show lazy_anyGo (Condition.thunk (Except.ok v) :: rest) =
              ((lazy_anyGo rest).1, 0 :: (lazy_anyGo rest).2.map (· + 1)) from by
            simp [lazy_anyGo, hv]]
          refine List.Pairwise.cons ?_ (pairwise_lt_map_succ ih)
          intro a ha
          rcases List.mem_map.mp ha with ⟨b, _, hb⟩
          omega
    | other v => exact pairwise_lt_map_succ ih

/-- If the scan of `lazy_all` stops at position `i` (the entry there evaluates
falsy or raises), no thunk at a later position is invoked. -/
theorem lazy_allGo_trace_le (l : List Condition) (ev i : Nat) (c : Condition)
    (hget : l.get? i = some c)
    (hc : ¬(evalResult c = none ∨ evalResult c = some (.ok true))) :
    ∀ k ∈ (lazy_allGo l ev).2, k ≤ i := by
  intro k hk
  by_contra hik
  have hik2 : i < k := by omega
  have hchar := (lazy_allGo_invoked_iff l ev k).mp hk
  have hcmem : c ∈ l.take k := by
    have h1 : (l.take k).get? i = some c := by
      rw [List.get?_take hik2]
      exact hget
    exact List.get?_mem h1
  exact hc (hchar.2 c hcmem)

/-- If the scan of `lazy_any` stops at position `i` (the entry there evaluates
truthy or raises), no thunk at a later position is invoked. -/
theorem lazy_anyGo_trace_le (l : List Condition) (i : Nat) (c : Condition)
    (hget : l.get? i = some c)
    (hc : ¬(evalResult c = none ∨ evalResult c = some (.ok false))) :
    ∀ k ∈ (lazy_anyGo l).2, k ≤ i := by
  intro k hk
  by_contra hik
  have hik2 : i < k := by omega
  have hchar := (lazy_anyGo_invoked_iff l k).mp hk
  have hcmem : c ∈ l.take k := by
    have h1 : (l.take k).get? i = some c := by
      rw [List.get?_take hik2]
      exact hget
    exact List.get?_mem h1
  exact hc (hchar.2 c hcmem)

/-- If every entry before position `i` lets the scan of `lazy_all` continue,
the scan reaches position `i` (with some value of the `evaluated` counter). -/
theorem lazy_allGo_reach :
    ∀ (l : List Condition) (ev i : Nat),
      (∀ d ∈ l.take i, evalResult d = none ∨ evalResult d = some (.ok true)) →
      ∃ ev2, (lazy_allGo l ev).1 = (lazy_allGo (l.drop i) ev2).1
  | _, ev, 0, _ => ⟨ev, rfl⟩
  | [], ev, _ + 1, _ => ⟨ev, by simp⟩
  | c0 :: rest, ev, i + 1, hpass => by
    have h0 : evalResult c0 = none ∨ evalResult c0 = some (.ok true) :=
      hpass c0 (List.mem_cons_self c0 _)
    have htail : ∀ d ∈ rest.take i, evalResult d = none ∨ evalResult d = some (.ok true) :=
      fun d hd => hpass d (List.mem_cons_of_mem c0 hd)
    cases c0 with
    | boolLit b =>
      have hb : b = true := by
        rcases h0 with h | h <;> simpa [evalResult] using h
      subst hb
      obtain ⟨ev2, he⟩ := lazy_allGo_reach rest (ev + 1) i htail
      exact ⟨ev2, by simpa [lazy_allGo] using he⟩
    | thunk r =>
      cases r with
      | error e => rcases h0 with h | h <;> simp [evalResult] at h
      | ok v =>
        have hv : v.truthy = true := by
          rcases h0 with h | h <;> simpa [evalResult] using h
        obtain ⟨ev2, he⟩ := lazy_allGo_reach rest (ev + 1) i htail
        exact ⟨ev2, by simpa [lazy_allGo, hv] using he⟩
    | other v =>
      obtain ⟨ev2, he⟩ := lazy_allGo_reach rest ev i htail
      exact ⟨ev2, by simpa [lazy_allGo] using he⟩

/-- If every entry before position `i` lets the scan of `lazy_any` continue,
the scan reaches position `i`. -/
theorem lazy_anyGo_reach :
    ∀ (l : List Condition) (i : Nat),
      (∀ d ∈ l.take i, evalResult d = none ∨ evalResult d = some (.ok false)) →
      (lazy_anyGo l).1 = (lazy_anyGo (l.drop i)).1
  | _, 0, _ => rfl
  | [], _ + 1, _ => by simp
  | c0 :: rest, i + 1, hpass => by
    have h0 : evalResult c0 = none ∨ evalResult c0 = some (.ok false) :=
      hpass c0 (List.mem_cons_self c0 _)
    have htail : ∀ d ∈ rest.take i, evalResult d = none ∨ evalResult d = some (.ok false) :=
      fun d hd => hpass d (List.mem_cons_of_mem c0 hd)
    cases c0 with
    | boolLit b =>
      have hb : b = false := by
        rcases h0 with h | h <;> simpa [evalResult] using h
      subst hb
      simpa [lazy_anyGo] using lazy_anyGo_reach rest i htail
    | thunk r =>
      cases r with
      | error e => rcases h0 with h | h <;> simp [evalResult] at h
      | ok v =>
        have hv : v.truthy = false := by
          rcases h0 with h | h <;> simpa [evalResult] using h
        simpa [lazy_anyGo, hv] using lazy_anyGo_reach rest i htail
    | other v => simpa [lazy_anyGo] using lazy_anyGo_reach rest i htail

/-- A head entry evaluating falsy makes `lazy_all` return `False` at once. -/
theorem lazy_allGo_head_falsy (c : Condition) (t : List Condition) (ev : Nat)
    (h : evalResult c = some (.ok false)) : (lazy_allGo (c :: t) ev).1 = .ok false := by
  cases c with
  | boolLit b =>
    have hb : b = false := by simpa [evalResult] using h
    subst hb
    simp [lazy_allGo]
  | thunk r =>
    cases r with
    | error e => simp [evalResult] at h
    | ok v =>
      have hv : v.truthy = false := by simpa [evalResult] using h
      simp [lazy_allGo, hv]
  | other v => simp [evalResult] at h

/-- A head thunk that raises makes `lazy_all` propagate the exception. -/
theorem lazy_allGo_head_raise (c : Condition) (t : List Condition) (ev : Nat) (e : PyExc)
    (h : evalResult c = some (.error e)) : (lazy_allGo (c :: t) ev).1 = .error e := by
  cases c with
  | boolLit b => simp [evalResult] at h
  | thunk r =>
    cases r with
    | error f =>
      have hf : f = e := by simpa [evalResult] using h
      subst hf
      simp [lazy_allGo]
    | ok v => simp [evalResult] at h
  | other v => simp [evalResult] at h

/-- A head entry evaluating truthy makes `lazy_any` return `True` at once. -/
theorem lazy_anyGo_head_truthy (c : Condition) (t : List Condition)
    (h : evalResult c = some (.ok true)) : (lazy_anyGo (c :: t)).1 = .ok true := by
  cases c with
  | boolLit b =>
    have hb : b = true := by simpa [evalResult] using h
    subst hb
    simp [lazy_anyGo]
  | thunk r =>
    cases r with
    | error e => simp [evalResult] at h
    | ok v =>
      have hv : v.truthy = true := by simpa [evalResult] using h
      simp [lazy_anyGo, hv]
  | other v => simp [evalResult] at h

/-- A head thunk that raises makes `lazy_any` propagate the exception. -/
theorem lazy_anyGo_head_raise (c : Condition) (t : List Condition) (e : PyExc)
    (h : evalResult c = some (.error e)) : (lazy_anyGo (c :: t)).1 = .error e := by
  cases c with
  | boolLit b => simp [evalResult] at h
  | thunk r =>
    cases r with
    | error f =>
      have hf : f = e := by simpa [evalResult] using h
      subst hf
      simp [lazy_anyGo]
    | ok v => simp [evalResult] at h
  | other v => simp [evalResult] at h

/-- Getting an entry at `i` bounds `i` by the length and exposes the drop. -/
theorem drop_cons_of_get? {l : List Condition} {i : Nat} {c : Condition}
    (hget : l.get? i = some c) : l.drop i = c :: l.drop (i + 1) := by
  have h1 : l[i]? = some c := by rw [← List.get?_eq_getElem?]; exact hget
  obtain ⟨h2, h3⟩ := List.getElem?_eq_some_iff.mp h1
  rw [List.drop_eq_getElem_cons h2, h3]

/-- When every entry is skipped or evaluates truthy, `lazy_all` completes its
scan and returns whether anything was evaluated (`evaluated > 0`). -/
theorem lazy_allGo_ok :
    ∀ (l : List Condition) (ev : Nat),
      (∀ d ∈ l, evalResult d = none ∨ evalResult d = some (.ok true)) →
      (lazy_allGo l ev).1 = .ok (decide (0 < ev) || l.any Condition.isEvaluable)
  | [], ev, _ => by simp [lazy_allGo]
  | c :: rest, ev, h => by
    have h0 := h c (List.mem_cons_self c rest)
    have htail := fun d hd => h d (List.mem_cons_of_mem c hd)
    cases c with
    | boolLit b =>
      have hb : b = true := by
        rcases h0 with h0 | h0 <;> simpa [evalResult] using h0
      subst hb
      have ih := lazy_allGo_ok rest (ev + 1) htail
      rw [show (lazy_allGo (Condition.boolLit true :: rest) ev).1 =
          (lazy_allGo rest (ev + 1)).1 from by simp [lazy_allGo]]
      simp [ih, Condition.isEvaluable]
    | thunk r =>
      cases r with
      | error e => rcases h0 with h0 | h0 <;> simp [evalResult] at h0
      | ok v =>
        have hv : v.truthy = true := by
          rcases h0 with h0 | h0 <;> simpa [evalResult] using h0
        have ih := lazy_allGo_ok rest (ev + 1) htail
        rw [show (lazy_allGo (Condition.thunk (Except.ok v) :: rest) ev).1 =
            (lazy_allGo rest (ev + 1)).1 from by simp [lazy_allGo, hv]]
        simp [ih, Condition.isEvaluable]
    | other v =>
      have ih := lazy_allGo_ok rest ev htail
      rw [show (lazy_allGo (Condition.other v :: rest) ev).1 =
          (lazy_allGo rest ev).1 from by simp [lazy_allGo]]
      simp [ih, Condition.isEvaluable]

/-- Whether an entry is an evaluated condition yielding a truthy result: a
truthy boolean literal, or a thunk whose returned value is truthy. -/
def yieldsTruthy : Condition → Bool
  | .boolLit b => b
  | .thunk (.ok v) => v.truthy
  | _ => false

/-- When no thunk raises, `lazy_any` returns whether some entry, in list
order, is an evaluated condition yielding a truthy result. -/
theorem lazy_anyGo_ok :
    ∀ l : List Condition,
      (∀ d ∈ l, raisesWhenInvoked d = false) →
      (lazy_anyGo l).1 = .ok (l.any yieldsTruthy)
  | [], _ => rfl
  | c :: rest, h => by
    have h0 := h c (List.mem_cons_self c rest)
    have ih := lazy_anyGo_ok rest (fun d hd => h d (List.mem_cons_of_mem c hd))
    cases c with
    | boolLit b =>
      cases b with
      | true => simp [lazy_anyGo, yieldsTruthy]
      | false => simp [lazy_anyGo, yieldsTruthy, ih]
    | thunk r =>
      cases r with
      | error e => simp [raisesWhenInvoked] at h0
      | ok v =>
        cases hv : v.truthy with
        | true => simp [lazy_anyGo, hv, yieldsTruthy]
        | false => simp [lazy_anyGo, hv, yieldsTruthy, ih]
    | other v => simp [lazy_anyGo, yieldsTruthy, ih]

/-- `yieldsTruthy` is exactly an evaluated condition whose result is truthy. -/
theorem yieldsTruthy_iff (c : Condition) :
    yieldsTruthy c = true ↔ evalResult c = some (.ok true) := by
  cases c with
  | boolLit b => cases b <;> simp [yieldsTruthy, evalResult]
  | thunk r =>
    cases r with
    | error e => simp [yieldsTruthy, evalResult]
    | ok v => cases hv : v.truthy <;> simp [yieldsTruthy, evalResult, hv]
  | other v => simp [yieldsTruthy, evalResult]

/-- A skipped entry changes neither the result of `lazy_all` nor its counter. -/
theorem lazy_allGo_append_other :
    ∀ (l1 : List Condition) (v : PyVal) (l2 : List Condition) (ev : Nat),
      (lazy_allGo (l1 ++ .other v :: l2) ev).1 = (lazy_allGo (l1 ++ l2) ev).1
  | [], _, _, _ => rfl
  | c :: l1, v, l2, ev => by
    cases c with
    | boolLit b =>
      cases b with
      | true => simpa [lazy_allGo] using lazy_allGo_append_other l1 v l2 (ev + 1)
      | false => rfl
    | thunk r =>
      cases r with
      | error e => rfl
      | ok w =>
        cases hw : w.truthy with
        | true => simpa [lazy_allGo, hw] using lazy_allGo_append_other l1 v l2 (ev + 1)
        | false => simp [lazy_allGo, hw]
    | other w => simpa [lazy_allGo] using lazy_allGo_append_other l1 v l2 ev

/-- A skipped entry changes the result of `lazy_any` in no way. -/
theorem lazy_anyGo_append_other :
    ∀ (l1 : List Condition) (v : PyVal) (l2 : List Condition),
      (lazy_anyGo (l1 ++ .other v :: l2)).1 = (lazy_anyGo (l1 ++ l2)).1
  | [], _, _ => rfl
  | c :: l1, v, l2 => by
    cases c with
    | boolLit b =>
      cases b with
      | true => rfl
      | false => simpa [lazy_anyGo] using lazy_anyGo_append_other l1 v l2
    | thunk r =>
      cases r with
      | error e => rfl
      | ok w =>
        cases hw : w.truthy with
        | true => simp [lazy_anyGo, hw]
        | false => simpa [lazy_anyGo, hw] using lazy_anyGo_append_other l1 v l2
    | other w => simpa [lazy_anyGo] using lazy_anyGo_append_other l1 v l2

/-- On boolean-literal lists the scan of `lazy_all` evaluates everything:
the result is `False` when some literal is `False`, and otherwise records
that `length` further conditions were evaluated. -/
theorem lazy_allGo_map_bool :
    ∀ (l : List Bool) (ev : Nat),
      (lazy_allGo (l.map Condition.boolLit) ev).1 =
        if l.all id then .ok (decide (0 < ev + l.length)) else .ok false
  | [], ev => by simp [lazy_allGo]
  | b :: rest, ev => by
    cases b with
    | true =>
      rw [show (lazy_allGo ((true :: rest).map Condition.boolLit) ev).1 =
          (lazy_allGo (rest.map Condition.boolLit) (ev + 1)).1 from by simp [lazy_allGo]]
      rw [lazy_allGo_map_bool rest (ev + 1)]
      have harith : ev + 1 + rest.length = ev + (rest.length + 1) := by omega
      by_cases hall : rest.all id <;> simp [hall, harith]
    | false => simp [lazy_allGo]

/-- On boolean-literal lists `lazy_any` is the standard `any`. -/
theorem lazy_anyGo_map_bool :
    ∀ l : List Bool,
      (lazy_anyGo (l.map Condition.boolLit)).1 = .ok (l.any id)
  | [] => rfl
  | b :: rest => by
    cases b with
    | true => simp [lazy_anyGo]
    | false => simpa [lazy_anyGo] using lazy_anyGo_map_bool rest

/-- Every branch of the `lazy_all` loop returns the condition list as it
received it: no iteration writes to it. -/
theorem lazy_allLoop_state :
    ∀ (st : List Condition) (fuel i ev : Nat), (lazy_allLoop st fuel i ev).2 = st
  | _, 0, _, _ => rfl
  | st, fuel + 1, i, ev => by
    cases hg : st[i]? with
    | none => simp [lazy_allLoop, hg]
    | some c =>
      cases c with
      | boolLit b =>
        cases b with
        | true => simpa [lazy_allLoop, hg] using lazy_allLoop_state st fuel (i + 1) (ev + 1)
        | false => simp [lazy_allLoop, hg]
      | thunk r =>
        cases r with
        | error e => simp [lazy_allLoop, hg]
        | ok v =>
          cases hv : v.truthy with
          | true => simpa [lazy_allLoop, hg, hv] using lazy_allLoop_state st fuel (i + 1) (ev + 1)
          | false => simp [lazy_allLoop, hg, hv]
      | other v => simpa [lazy_allLoop, hg] using lazy_allLoop_state st fuel (i + 1) ev

/-- Every branch of the `lazy_any` loop returns the condition list as it
received it: no iteration writes to it. -/
theorem lazy_anyLoop_state :
    ∀ (st : List Condition) (fuel i : Nat), (lazy_anyLoop st fuel i).2 = st
  | _, 0, _ => rfl
  | st, fuel + 1, i => by
    cases hg : st[i]? with
    | none => simp [lazy_anyLoop, hg]
    | some c =>
      cases c with
      | boolLit b =>
        cases b with
        | true => simp [lazy_anyLoop, hg]
        | false => simpa [lazy_anyLoop, hg] using lazy_anyLoop_state st fuel (i + 1)
      | thunk r =>
        cases r with
        | error e => simp [lazy_anyLoop, hg]
        | ok v =>
          cases hv : v.truthy with
          | true => simp [lazy_anyLoop, hg, hv]
          | false => simpa [lazy_anyLoop, hg, hv] using lazy_anyLoop_state st fuel (i + 1)
      | other v => simpa [lazy_anyLoop, hg] using lazy_anyLoop_state st fuel (i + 1)

/-- The state-passing loop of `lazy_all` computes the same result as the
recursive presentation, given enough fuel to finish the scan. -/
theorem lazy_allLoop_eq :
    ∀ (fuel : Nat) (st : List Condition) (i ev : Nat), st.length ≤ i + fuel →
      (lazy_allLoop st fuel i ev).1 = (lazy_allGo (st.drop i) ev).1
  | 0, st, i, ev, h => by
    rw [List.drop_eq_nil_of_le (by omega)]
    rfl
  | fuel + 1, st, i, ev, h => by
    cases hg : st[i]? with
    | none =>
      have hlen : st.length ≤ i := List.getElem?_eq_none_iff.mp hg
      rw [List.drop_eq_nil_of_le hlen]
      simp [lazy_allLoop, hg, lazy_allGo]
    | some c =>
      have hdrop : st.drop i = c :: st.drop (i + 1) :=
        drop_cons_of_get? (by rw [List.get?_eq_getElem?]; exact hg)
      cases c with
      | boolLit b =>
        cases b with
        | true =>
          rw [hdrop]
          have ih := lazy_allLoop_eq fuel st (i + 1) (ev + 1) (by omega)
          simpa [lazy_allLoop, hg, lazy_allGo] using ih
        | false => simp [lazy_allLoop, hg, hdrop, lazy_allGo]
      | thunk r =>
        cases r with
        | error e => simp [lazy_allLoop, hg, hdrop, lazy_allGo]
        | ok v =>
          cases hv : v.truthy with
          | true =>
            rw [hdrop]
            have ih := lazy_allLoop_eq fuel st (i + 1) (ev + 1) (by omega)
            simpa [lazy_allLoop, hg, hv, lazy_allGo] using ih
          | false => simp [lazy_allLoop, hg, hv, hdrop, lazy_allGo]
      | other v =>
        rw [hdrop]
        have ih := lazy_allLoop_eq fuel st (i + 1) ev (by omega)
        simpa [lazy_allLoop, hg, lazy_allGo] using ih

/-- The state-passing loop of `lazy_any` computes the same result as the
recursive presentation, given enough fuel to finish the scan. -/
theorem lazy_anyLoop_eq :
    ∀ (fuel : Nat) (st : List Condition) (i : Nat), st.length ≤ i + fuel →
      (lazy_anyLoop st fuel i).1 = (lazy_anyGo (st.drop i)).1
  | 0, st, i, h => by
    rw [List.drop_eq_nil_of_le (by omega)]
    rfl
  | fuel + 1, st, i, h => by
    cases hg : st[i]? with
    | none =>
      have hlen : st.length ≤ i := List.getElem?_eq_none_iff.mp hg
      rw [List.drop_eq_nil_of_le hlen]
      simp [lazy_anyLoop, hg, lazy_anyGo]
    | some c =>
      have hdrop : st.drop i = c :: st.drop (i + 1) :=
        drop_cons_of_get? (by rw [List.get?_eq_getElem?]; exact hg)
      cases c with
      | boolLit b =>
        cases b with
        | true => simp [lazy_anyLoop, hg, hdrop, lazy_anyGo]
        | false =>
          rw [hdrop]
          have ih := lazy_anyLoop_eq fuel st (i + 1) (by omega)
          simpa [lazy_anyLoop, hg, lazy_anyGo] using ih
      | thunk r =>
        cases r with
        | error e => simp [lazy_anyLoop, hg, hdrop, lazy_anyGo]
        | ok v =>
          cases hv : v.truthy with
          | true => simp [lazy_anyLoop, hg, hv, hdrop, lazy_anyGo]
          | false =>
            rw [hdrop]
            have ih := lazy_anyLoop_eq fuel st (i + 1) (by omega)
            simpa [lazy_anyLoop, hg, hv, lazy_anyGo] using ih
      | other v =>
        rw [hdrop]
        have ih := lazy_anyLoop_eq fuel st (i + 1) (by omega)
        simpa [lazy_anyLoop, hg, lazy_anyGo] using ih

/-- C1: if the condition at position `i` evaluates to a falsy result and
every earlier evaluated condition yielded a truthy result (earlier entries
are skipped or evaluate truthy), then `lazy_all` returns `False` and no
condition after position `i` is evaluated: every invoked thunk sits at a
position at most `i`. -/
theorem lazy_all_short_circuits_on_falsy (l : List Condition) (i : Nat) (c : Condition)
    (hget : l.get? i = some c) (hfalsy : evalResult c = some (.ok false))
    (hbefore : ∀ d ∈ l.take i, evalResult d = none ∨ evalResult d = some (.ok true)) :
    lazy_all l = .ok false ∧ ∀ k ∈ lazy_all_invoked l, k ≤ i := by
  constructor
  · obtain ⟨ev2, he⟩ := lazy_allGo_reach l 0 i hbefore
    rw [lazy_all, he, drop_cons_of_get? hget]
    exact lazy_allGo_head_falsy c _ ev2 hfalsy
  · exact lazy_allGo_trace_le l 0 i c hget (by simp [hfalsy])

/-- Witness for C1: the falsy thunk at position 1 short-circuits, and the
thunk at position 2 is never invoked. -/
theorem lazy_all_short_circuits_on_falsy_witness :
    lazy_all [.boolLit true, .thunk (.ok (.vint 0)), .thunk (.ok (.vbool true))] = .ok false ∧
      ∀ k ∈ lazy_all_invoked
          [.boolLit true, .thunk (.ok (.vint 0)), .thunk (.ok (.vbool true))], k ≤ 1 :=
  lazy_all_short_circuits_on_falsy _ 1 (.thunk (.ok (.vint 0)))
    (by decide) (by decide) (by decide)

/-- C2: when no evaluated condition yields a falsy result (and no thunk
raises, so the scan completes), `lazy_all` returns `True` exactly when some
entry was actually evaluated, i.e. was a boolean literal or a thunk; on the
empty list or a list of only skipped entries it returns `False`. -/
theorem lazy_all_true_iff_evaluated (l : List Condition)
    (hnofalsy : ∀ c ∈ l, evalResult c ≠ some (.ok false))
    (hnoraise : ∀ c ∈ l, raisesWhenInvoked c = false) :
    lazy_all l = .ok (l.any Condition.isEvaluable) := by
  have hpass : ∀ c ∈ l, evalResult c = none ∨ evalResult c = some (.ok true) := by
    intro c hc
    have h1 := hnofalsy c hc
    have h2 := hnoraise c hc
    cases c with
    | boolLit b =>
      cases b with
      | true => exact Or.inr rfl
      | false => simp [evalResult] at h1
    | thunk r =>
      cases r with
      | error e => simp [raisesWhenInvoked] at h2
      | ok v =>
        cases hv : v.truthy with
        | true => exact Or.inr (by simp [evalResult, hv])
        | false => simp [evalResult, hv] at h1
    | other v => exact Or.inl rfl
  have h := lazy_allGo_ok l 0 hpass
  simpa [lazy_all] using h

/-- Witness for C2: a list with only a skipped entry has nothing evaluated,
so `lazy_all` returns `False`. -/
theorem lazy_all_true_iff_evaluated_witness :
    lazy_all [.other (.vint 5)] = .ok ([Condition.other (.vint 5)].any Condition.isEvaluable) :=
  lazy_all_true_iff_evaluated [.other (.vint 5)] (by decide) (by decide)

/-- C3: when no thunk raises, `lazy_any` returns `True` exactly when some
entry, in list order, is an evaluated condition yielding a truthy result;
otherwise, including the empty list and all-skipped lists, it returns
`False`. -/
theorem lazy_any_true_iff_some_truthy (l : List Condition)
    (hnoraise : ∀ c ∈ l, raisesWhenInvoked c = false) :
    lazy_any l = .ok (l.any yieldsTruthy) :=
  lazy_anyGo_ok l hnoraise

/-- Witness for C3: a skipped entry and a falsy literal followed by a truthy
thunk give `True`. -/
theorem lazy_any_true_iff_some_truthy_witness :
    lazy_any [.boolLit false, .other .vnone, .thunk (.ok (.vint 7))] =
      .ok ([Condition.boolLit false, .other .vnone, .thunk (.ok (.vint 7))].any yieldsTruthy) :=
  lazy_any_true_iff_some_truthy _ (by decide)

/-- C4: `lazy_any` invokes thunks strictly in list order (its invocation
trace is strictly increasing), and once the condition at position `i`
evaluates truthy with every earlier entry skipped or falsy, it returns
`True` and evaluates no condition after position `i`. -/
theorem lazy_any_invokes_in_order_then_stops (l : List Condition) (i : Nat) (c : Condition) :
    List.Pairwise (· < ·) (lazy_any_invoked l) ∧
      (l.get? i = some c → evalResult c = some (.ok true) →
        (∀ d ∈ l.take i, evalResult d = none ∨ evalResult d = some (.ok false)) →
        lazy_any l = .ok true ∧ ∀ k ∈ lazy_any_invoked l, k ≤ i) := by
  refine ⟨lazy_anyGo_trace_sorted l, fun hget htruthy hbefore => ⟨?_, ?_⟩⟩
  · have he := lazy_anyGo_reach l i hbefore
    rw [lazy_any, he, drop_cons_of_get? hget]
    exact lazy_anyGo_head_truthy c _ htruthy
  · exact lazy_anyGo_trace_le l i c hget (by simp [htruthy])

/-- Witness for C4: of two thunks the first is truthy, so the result is
`True` and only position 0 is ever invoked. -/
theorem lazy_any_invokes_in_order_then_stops_witness :
    List.Pairwise (· < ·)
        (lazy_any_invoked [.thunk (.ok (.vint 1)), .thunk (.ok (.vint 99))]) ∧
      (lazy_any [.thunk (.ok (.vint 1)), .thunk (.ok (.vint 99))] = .ok true ∧
        ∀ k ∈ lazy_any_invoked [.thunk (.ok (.vint 1)), .thunk (.ok (.vint 99))], k ≤ 0) :=
  ⟨(lazy_any_invokes_in_order_then_stops
      [.thunk (.ok (.vint 1)), .thunk (.ok (.vint 99))] 0 (.thunk (.ok (.vint 1)))).1,
    (lazy_any_invokes_in_order_then_stops
      [.thunk (.ok (.vint 1)), .thunk (.ok (.vint 99))] 0 (.thunk (.ok (.vint 1)))).2
      (by decide) (by decide) (by decide)⟩

/-- C5: an entry that is neither a boolean literal nor a thunk is inert for
both functions: removing it changes neither result, it is never invoked, and
it is never counted toward the tally of evaluated conditions (otherwise
removing it would change the result of `lazy_all`). -/
theorem skipped_entry_is_inert (l1 l2 : List Condition) (v : PyVal) :
    lazy_all (l1 ++ .other v :: l2) = lazy_all (l1 ++ l2) ∧
      lazy_any (l1 ++ .other v :: l2) = lazy_any (l1 ++ l2) ∧
      l1.length ∉ lazy_all_invoked (l1 ++ .other v :: l2) ∧
      l1.length ∉ lazy_any_invoked (l1 ++ .other v :: l2) := by
  have hget : (l1 ++ Condition.other v :: l2).get? l1.length = some (.other v) := by
    rw [List.get?_eq_getElem?, List.getElem?_append_right (Nat.le_refl _)]
    simp
  refine ⟨lazy_allGo_append_other l1 v l2 0, lazy_anyGo_append_other l1 v l2, ?_, ?_⟩
  · intro hmem
    obtain ⟨⟨r, hr⟩, -⟩ := (lazy_allGo_invoked_iff _ 0 _).mp hmem
    rw [hget] at hr
    simp at hr
  · intro hmem
    obtain ⟨⟨r, hr⟩, -⟩ := (lazy_anyGo_invoked_iff _ _).mp hmem
    rw [hget] at hr
    simp at hr

/-- C6: a thunk is invoked exactly when its position is reached — position
`i` is in the invocation trace iff the entry there is a thunk and every
earlier entry lets the scan continue — and a thunk's returned value is
interpreted by truthiness: a thunk returning 5 counts truthy, one returning
0 counts falsy. -/
theorem thunk_invocation_iff_reached (l : List Condition) (i : Nat) (v : PyVal) :
    (i ∈ lazy_all_invoked l ↔
        (∃ r, l.get? i = some (.thunk r)) ∧
          ∀ d ∈ l.take i, evalResult d = none ∨ evalResult d = some (.ok true)) ∧
      (i ∈ lazy_any_invoked l ↔
        (∃ r, l.get? i = some (.thunk r)) ∧
          ∀ d ∈ l.take i, evalResult d = none ∨ evalResult d = some (.ok false)) ∧
      lazy_all [.thunk (.ok v)] = .ok v.truthy ∧
      lazy_any [.thunk (.ok v)] = .ok v.truthy ∧
      PyVal.truthy (.vint 5) = true ∧ PyVal.truthy (.vint 0) = false := by
  refine ⟨lazy_allGo_invoked_iff l 0 i, lazy_anyGo_invoked_iff l i, ?_, ?_, by decide, by decide⟩
  · cases hv : v.truthy <;> simp [lazy_all, lazy_allGo, hv]
  · cases hv : v.truthy <;> simp [lazy_any, lazy_anyGo, hv]

/-- Witness for C6: in a list whose second entry is a falsy thunk, position 1
is invoked by `lazy_all` (the scan reaches it through the truthy literal). -/
theorem thunk_invocation_iff_reached_witness :
    1 ∈ lazy_all_invoked [.boolLit true, .thunk (.ok (.vint 0)), .thunk (.ok (.vint 3))] :=
  ((thunk_invocation_iff_reached
      [.boolLit true, .thunk (.ok (.vint 0)), .thunk (.ok (.vint 3))] 1 .vnone).1).mpr
    ⟨⟨.ok (.vint 0), by decide⟩, by decide⟩

/-- C7: a raising thunk at position `i`, reached because every earlier entry
lets the scan continue, makes the function return that very exception —
neither caught nor translated — and no condition after position `i` is
evaluated; for `lazy_all` and `lazy_any` alike. -/
theorem thunk_exception_propagates (l : List Condition) (i : Nat) (e : PyExc)
    (hget : l.get? i = some (.thunk (.error e))) :
    ((∀ d ∈ l.take i, evalResult d = none ∨ evalResult d = some (.ok true)) →
        lazy_all l = .error e ∧ ∀ k ∈ lazy_all_invoked l, k ≤ i) ∧
      ((∀ d ∈ l.take i, evalResult d = none ∨ evalResult d = some (.ok false)) →
        lazy_any l = .error e ∧ ∀ k ∈ lazy_any_invoked l, k ≤ i) := by
  have hres : evalResult (.thunk (.error e)) = some (.error e) := rfl
  constructor
  · intro hb
    constructor
    · obtain ⟨ev2, he⟩ := lazy_allGo_reach l 0 i hb
      rw [lazy_all, he, drop_cons_of_get? hget]
      exact lazy_allGo_head_raise _ _ ev2 e hres
    · exact lazy_allGo_trace_le l 0 i _ hget (by simp [hres])
  · intro hb
    constructor
    · have he := lazy_anyGo_reach l i hb
      rw [lazy_any, he, drop_cons_of_get? hget]
      exact lazy_anyGo_head_raise _ _ e hres
    · exact lazy_anyGo_trace_le l i _ hget (by simp [hres])

/-- Witness for C7: the raising thunk at position 1 propagates its exception
out of `lazy_all`, and the thunk at position 2 is never invoked. -/
theorem thunk_exception_propagates_witness :
    lazy_all [.boolLit true, .thunk (.error ⟨7⟩), .thunk (.ok (.vbool true))] = .error ⟨7⟩ ∧
      ∀ k ∈ lazy_all_invoked
          [.boolLit true, .thunk (.error ⟨7⟩), .thunk (.ok (.vbool true))], k ≤ 1 :=
  (thunk_exception_propagates
      [.boolLit true, .thunk (.error ⟨7⟩), .thunk (.ok (.vbool true))] 1 ⟨7⟩ (by decide)).1
    (by decide)

/-- C8: in the state-passing presentation, which reads the caller's list by
index and threads it through every iteration, both functions return the list
exactly as it was — it is only read, never mutated — and their results agree
with the recursive presentation. -/
theorem conditions_list_not_mutated (l : List Condition) :
    (lazy_allS l).2 = l ∧ (lazy_anyS l).2 = l ∧
      (lazy_allS l).1 = lazy_all l ∧ (lazy_anyS l).1 = lazy_any l := by
  refine ⟨lazy_allLoop_state l l.length 0 0, lazy_anyLoop_state l l.length 0, ?_, ?_⟩
  · have h := lazy_allLoop_eq l.length l 0 0 (by omega)
    simpa [lazy_allS, lazy_all] using h
  · have h := lazy_anyLoop_eq l.length l 0 (by omega)
    simpa [lazy_anyS, lazy_any] using h

/-- C9: on boolean-literal lists, `lazy_any` is the standard `any`; on
non-empty boolean-literal lists, `lazy_all` is the standard `all`; but on
the empty list `lazy_all` returns `False`, unlike the standard `all`. -/
theorem agrees_with_standard_any_all (l : List Bool) :
    lazy_any (l.map Condition.boolLit) = .ok (l.any id) ∧
      (l ≠ [] → lazy_all (l.map Condition.boolLit) = .ok (l.all id)) ∧
      lazy_all [] = .ok false := by
  refine ⟨lazy_anyGo_map_bool l, ?_, rfl⟩
  intro hne
  rw [lazy_all, lazy_allGo_map_bool l 0]
  by_cases hall : l.all id
  · have hpos : 0 < l.length := List.length_pos.mpr hne
    simp [hall, hpos]
  · have hf : l.all id = false := by revert hall; cases l.all id <;> simp
    simp [hf]

/-- Witness for C9: on `[true, false]` both functions agree with the
standard combinators. -/
theorem agrees_with_standard_any_all_witness :
    lazy_any ([true, false].map Condition.boolLit) = .ok ([true, false].any id) ∧
      lazy_all ([true, false].map Condition.boolLit) = .ok ([true, false].all id) :=
  ⟨(agrees_with_standard_any_all [true, false]).1,
    (agrees_with_standard_any_all [true, false]).2.1 (by decide)⟩

/-- C10: when no thunk in either list raises, `lazy_any` of the
concatenation is the disjunction of `lazy_any` of the parts. -/
theorem lazy_any_distributes_over_append (l1 l2 : List Condition)
    (hnoraise : ∀ c ∈ l1 ++ l2, raisesWhenInvoked c = false) :
    ∃ b1 b2, lazy_any l1 = .ok b1 ∧ lazy_any l2 = .ok b2 ∧
      lazy_any (l1 ++ l2) = .ok (b1 || b2) := by
  have h1 : ∀ c ∈ l1, raisesWhenInvoked c = false := fun c hc =>
    hnoraise c (List.mem_append_left l2 hc)
  have h2 : ∀ c ∈ l2, raisesWhenInvoked c = false := fun c hc =>
    hnoraise c (List.mem_append_right l1 hc)
  refine ⟨l1.any yieldsTruthy, l2.any yieldsTruthy,
    lazy_anyGo_ok l1 h1, lazy_anyGo_ok l2 h2, ?_⟩
  rw [lazy_any, lazy_anyGo_ok (l1 ++ l2) hnoraise, List.any_append]

/-- Witness for C10: a falsy literal on the left, a truthy thunk on the
right. -/
theorem lazy_any_distributes_over_append_witness :
    ∃ b1 b2, lazy_any [.boolLit false] = .ok b1 ∧
      lazy_any [.thunk (.ok (.vint 2))] = .ok b2 ∧
      lazy_any ([.boolLit false] ++ [.thunk (.ok (.vint 2))]) = .ok (b1 || b2) :=
  lazy_any_distributes_over_append [.boolLit false] [.thunk (.ok (.vint 2))] (by decide)

end Laa
